import Mathlib

set_option maxRecDepth 16000

/-!
Verification of the document preprocessing pipeline
(`src/document_preprocessor.py` and `src/document_preprocessor_custom.py`).

Texts are modelled as `List Char`.  Python integer arithmetic on cursor
positions is modelled with `Int` (Python ints are unbounded, and the chunker
manipulates possibly-negative sentinel values such as `last_word = -1`).
Python sequence slicing `text[a:b]` and indexing `text[i]` are modelled by
`pySlice` and `pyIdx` below, including the clamping and negative-index
wrap-around semantics of Python slices.  (`pyIdx` returns a default character
for an index that Python would reject with `IndexError`; every use of `pyIdx`
in the embedded code is guarded so that this case is not reached on the
executions the theorems speak about.)

The token-counting oracle (`tiktoken`) is external to the repository; the
chunker is therefore parameterised by the function
`calc : List Char → Nat` standing for
`len(text') ↦ self._calc_char_length_from_tokens(text', N_TOKENS_TARGET)`
applied to the remaining suffix.  The binary search
`_calc_char_length_from_tokens` itself is embedded separately
(`calcCharLength`), parameterised by the oracle `f : Nat → Nat` giving the
token count of each prefix length.
-/

/-- Python slice bound: clamps `i` into `[0, |s|]`, counting from the end when
`i` is negative (Python slice semantics). -/
def pyBound (s : List Char) (i : Int) : Nat :=
  if i < 0 then (i + s.length).toNat else min i.toNat s.length

/-- Python slice `s[a:b]`. -/
def pySlice (s : List Char) (a b : Int) : List Char :=
  (s.take (pyBound s b)).drop (pyBound s a)

/-- Python index `s[i]`: wraps once for negative `i`.  Out-of-range indices
(`IndexError` in Python) yield a default character; all uses in the embedded
code are guarded so this is unreachable on the runs under study. -/
def pyIdx (s : List Char) (i : Int) : Char :=
  if i < 0 then s.getD (i + s.length).toNat '\x00' else s.getD i.toNat '\x00'

/-- `N_TOKENS_TARGET` of `_chunk_text`. -/
def N_TOKENS_TARGET : Nat := 1000

/-- `MAX_CHARS_SEARCH` of `_chunk_text`. -/
def MAX_CHARS_SEARCH : Int := 100

/-- `CHUNK_OVERLAP` of `_chunk_text`. -/
def CHUNK_OVERLAP : Int := 100

/-- `SENTENCE_ENDINGS` of `_chunk_text` (ASCII and full-width). -/
def SENTENCE_ENDINGS : List Char :=
  ['.', '!', '?', '．', '。', '！', '？']

/-- `WORDS_BREAKS` of `_chunk_text` (ASCII and full-width). -/
def WORDS_BREAKS : List Char :=
  [',', ';', ':', ' ', '(', ')', '[', ']', '\x7b', '\x7d', '\t', '\n',
   '，', '、', '；', '：', '　', '（', '）',
   '「', '」', '『', '』', '【', '】',
   '｛', '｝']

/-!
## Token estimator (`_calc_char_length_from_tokens`)

The binary search over `[low, high]`.  `f k` is the oracle's token count for
the prefix of length `k` (`len(encoding.encode(text[:mid]))`).  The fuel
`n + 2` strictly exceeds the number of iterations the search can make (the
width `high - low + 1` starts at `n + 1` and strictly decreases), so the
fuel-0 branch is unreachable; its value is chosen to be the same expression
that the exhausted search returns.
-/

/-- One run of the `while low <= high` loop of
`_calc_char_length_from_tokens`. -/
def calcCharLengthGo (f : Nat → Nat) (target : Nat) : Nat → Int → Int → Int
  | 0, low, high => (low + high).fdiv 2
  | fuel + 1, low, high =>
    if low ≤ high then
      let mid := (low + high).fdiv 2
      let nTokens : Int := f mid.toNat
      if nTokens = target then mid
      else if nTokens < target then calcCharLengthGo f target fuel (mid + 1) high
      else calcCharLengthGo f target fuel low (mid - 1)
    else (low + high).fdiv 2

/-- `_calc_char_length_from_tokens` on a text of length `n`, with token
oracle `f`. -/
def calcCharLength (f : Nat → Nat) (n : Nat) (target : Nat) : Int :=
  calcCharLengthGo f target (n + 2) 0 n

/-!
## Boundary-aware chunker (`_chunk_text`)

The chunker is parameterised by `calc : List Char → Nat`, the character-count
estimator applied to the remaining suffix (`_calc_char_length_from_tokens` in
the source; `estimatorCalc` below ties the two together).

The two inner `while` loops scan at most `MAX_CHARS_SEARCH = 100` positions
(their conditions compare the moving cursor against `start ± 100`), so fuel
`100` simulates them exactly: if the fuel runs out the loop condition is
false at that point anyway.
-/

/-- The forward scan of `_chunk_text` (lines 86–94): advance `end` while it
is in range, within `limit = start + n_chars + MAX_CHARS_SEARCH`, and not on
a sentence ending; remember the last word break in `lastWord`. -/
def forwardScan (text : List Char) (limit : Int) :
    Nat → Int → Int → Int × Int
  | 0, e, lastWord => (e, lastWord)
  | fuel + 1, e, lastWord =>
    if e < (text.length : Int) ∧ e < limit ∧ pyIdx text e ∉ SENTENCE_ENDINGS then
      forwardScan text limit fuel (e + 1)
        (if pyIdx text e ∈ WORDS_BREAKS then e else lastWord)
    else (e, lastWord)

/-- The backward scan of `_chunk_text` (lines 111–119): decrement `start`
while it is positive, within `limit = start_origin - MAX_CHARS_SEARCH`, and
not on a sentence ending; remember the last word break in `lastWord`. -/
def backwardScan (text : List Char) (limit : Int) :
    Nat → Int → Int → Int × Int
  | 0, s, lastWord => (s, lastWord)
  | fuel + 1, s, lastWord =>
    if 0 < s ∧ limit < s ∧ pyIdx text s ∉ SENTENCE_ENDINGS then
      backwardScan text limit fuel (s - 1)
        (if pyIdx text s ∈ WORDS_BREAKS then s else lastWord)
    else (s, lastWord)

/-- Lines 77–105 of `_chunk_text`: compute the tentative `end` for the chunk
starting at `start`: estimate, clamp or scan forward for a sentence ending,
fall back to the last word break, and step past the boundary character. -/
def forwardEnd (calcF : List Char → Nat) (text : List Char) (start : Int) : Int :=
  let n : Int := text.length
  let nChars : Int := calcF (pySlice text start n)
  let e0 := start + nChars
  let e1 :=
    if e0 > n then n
    else
      let r := forwardScan text (start + nChars + MAX_CHARS_SEARCH) 100 e0 (-1)
      if r.1 < n ∧ pyIdx text r.1 ∉ SENTENCE_ENDINGS ∧ 0 < r.2 then r.2 else r.1
  if e1 < n then e1 + 1 else e1

/-- Lines 107–126 of `_chunk_text`: the backward scan followed by the
word-break snap, before the final advance.  (Stated separately so that the
advance step can be talked about on its own.) -/
def backwardSnap (text : List Char) (start : Int) : Int :=
  let r := backwardScan text (start - MAX_CHARS_SEARCH) 100 start (-1)
  if pyIdx text r.1 ∉ SENTENCE_ENDINGS ∧ 0 < r.2 then r.2 else r.1

/-- Lines 107–129 of `_chunk_text`: backward scan, word-break snap, and the
final `if start > 0: start += 1` advance, producing the chunk's start. -/
def backwardAdjust (text : List Char) (start : Int) : Int :=
  let r := backwardScan text (start - MAX_CHARS_SEARCH) 100 start (-1)
  let s1 := if pyIdx text r.1 ∉ SENTENCE_ENDINGS ∧ 0 < r.2 then r.2 else r.1
  if 0 < s1 then s1 + 1 else s1

/-- The `while start + CHUNK_OVERLAP < length` loop of `_chunk_text`,
returning the accumulated chunks together with the final `start` and `end`
values (needed by the trailing check on lines 134–135).  The fuel
`text.length + 1` strictly exceeds the number of iterations on the runs the
theorems quantify over; the fuel-0 branch returns the same state as a false
loop condition. -/
def chunkTextGo (calcF : List Char → Nat) (text : List Char) :
    Nat → Int → Int → List (List Char) × Int × Int
  | 0, start, e => ([], start, e)
  | fuel + 1, start, e =>
    if start + CHUNK_OVERLAP < (text.length : Int) then
      let e' := forwardEnd calcF text start
      let s' := backwardAdjust text start
      let r := chunkTextGo calcF text fuel (e' - CHUNK_OVERLAP) e'
      (pySlice text s' e' :: r.1, r.2)
    else ([], start, e)

/-- `_chunk_text`: the main loop followed by the trailing
`if start + CHUNK_OVERLAP < end` emission (lines 134–135). -/
def chunkText (calcF : List Char → Nat) (text : List Char) : List (List Char) :=
  let r := chunkTextGo calcF text (text.length + 1) 0 (text.length : Int)
  if r.2.1 + CHUNK_OVERLAP < r.2.2 then r.1 ++ [pySlice text r.2.1 r.2.2] else r.1

/-- The same loop as `chunkTextGo`, instrumented to record the `(start, end)`
index pair of each emitted chunk instead of the sliced text.  `chunkText` is
recovered by slicing each span (`chunkText_eq_map_spans`). -/
def spansGo (calcF : List Char → Nat) (text : List Char) :
    Nat → Int → Int → List (Int × Int) × Int × Int
  | 0, start, e => ([], start, e)
  | fuel + 1, start, e =>
    if start + CHUNK_OVERLAP < (text.length : Int) then
      let e' := forwardEnd calcF text start
      let s' := backwardAdjust text start
      let r := spansGo calcF text fuel (e' - CHUNK_OVERLAP) e'
      ((s', e') :: r.1, r.2)
    else ([], start, e)

/-- The `(start, end)` spans of the chunks emitted by `_chunk_text`. -/
def chunkSpans (calcF : List Char → Nat) (text : List Char) : List (Int × Int) :=
  let r := spansGo calcF text (text.length + 1) 0 (text.length : Int)
  if r.2.1 + CHUNK_OVERLAP < r.2.2 then r.1 ++ [(r.2.1, r.2.2)] else r.1

/-- `_chunk_text` with the estimator of the source wired in:
`calc` is `_calc_char_length_from_tokens(suffix, N_TOKENS_TARGET)` where
`f suffix k` is the external tokenizer's token count for the first `k`
characters of `suffix`. -/
def estimatorCalc (f : List Char → Nat → Nat) (s : List Char) : Nat :=
  (calcCharLength (f s) s.length N_TOKENS_TARGET).toNat

/-- De-overlapped concatenation of chunk bodies, following the emitted spans:
from every chunk after the first, the region already covered by the previous
chunk (`prevEnd - start` characters) is dropped before concatenation. -/
def dedupRest (text : List Char) : Int → List (Int × Int) → List Char
  | _, [] => []
  | prevEnd, (s, e) :: rest =>
    (pySlice text s e).drop (prevEnd - s).toNat ++ dedupRest text e rest

/-- De-overlapped concatenation of all chunk bodies. -/
def dedupBodies (text : List Char) : List (Int × Int) → List Char
  | [] => []
  | (s, e) :: rest => pySlice text s e ++ dedupRest text e rest

/-!
## Text normalisation (`create_chunks` lines 28–32 / custom lines 36–40)

`text = "\n".join([line.lstrip() for line in text.split("\n")])` followed by
`re.sub("\n{3,}", "\n\n", text)`.  `stripLines` processes the text line by
line exactly as the split/strip/join composite does; `collapseNL` replaces
every maximal run of `k ≥ 3` newlines by two (the greedy regex matches
maximal runs, left to right).
-/

/-- The characters stripped by Python's `str.lstrip()` (ASCII whitespace;
Python also strips the rarer Unicode space characters, which none of the
claims depend on). -/
def isPySpace (c : Char) : Bool :=
  c ∈ [' ', '\t', '\n', '\x0b', '\x0c', '\r']

/-- `"\n".join([line.lstrip() for line in text.split("\n")])`. -/
def stripLines (s : List Char) : List Char :=
  let line := s.takeWhile (fun c => c ≠ '\n')
  match h : s.dropWhile (fun c => c ≠ '\n') with
  | [] => line.dropWhile isPySpace
  | _ :: tail => line.dropWhile isPySpace ++ '\n' :: stripLines tail
termination_by s.length
decreasing_by
  have h1 : (s.dropWhile (fun c => c ≠ '\n')).length ≤ s.length :=
    (List.dropWhile_sublist (fun c => c ≠ '\n')).length_le
  simp only [h, List.length_cons] at h1
  omega

/-- `re.sub("\n{3,}", "\n\n", s)`: each maximal run of `k ≥ 3` newlines is
replaced by exactly two. -/
def collapseNL (s : List Char) : List Char :=
  match s with
  | [] => []
  | c :: rest =>
    if c = '\n' then
      let run := rest.takeWhile (fun d => d = '\n')
      let tail := rest.dropWhile (fun d => d = '\n')
      (if 3 ≤ run.length + 1 then ['\n', '\n'] else '\n' :: run) ++ collapseNL tail
    else c :: collapseNL rest
termination_by s.length
decreasing_by
  · have h1 : (rest.dropWhile (fun d => d = '\n')).length ≤ rest.length :=
      (List.dropWhile_sublist (fun d => d = '\n')).length_le
    simp only [List.length_cons]
    omega
  · simp only [List.length_cons]; omega

/-- The normalisation applied before chunking in both preprocessors. -/
def normalizeText (s : List Char) : List Char :=
  collapseNL (stripLines s)

/-!
Normal-form predicate for `stripLines`: every line starts with a
non-whitespace character (or is empty).  `okAfterNL` is the state "at the
start of a line", `okMid` the state "inside a line".
-/
mutual
def okAfterNL : List Char → Bool
  | [] => true
  | c :: rest => if c = '\n' then okAfterNL rest else (!isPySpace c) && okMid rest

def okMid : List Char → Bool
  | [] => true
  | c :: rest => if c = '\n' then okAfterNL rest else okMid rest
end

/-- Normal-form predicate for `collapseNL`: no run of three newlines, with
`k` counting the newlines immediately before the current position. -/
def noTripleAux : Nat → List Char → Bool
  | _, [] => true
  | k, c :: rest =>
    if c = '\n' then (if 2 ≤ k then false else noTripleAux (k + 1) rest)
    else noTripleAux 0 rest

/-- `s` contains no occurrence of three consecutive newlines. -/
def noTriple (s : List Char) : Bool := noTripleAux 0 s

/-!
## Document tree model and the custom extractor
(`document_preprocessor_custom.py`)

The markup parser (BeautifulSoup) is an external collaborator; its output is
modelled as the tree type `Node`.  `getText` is `Tag.get_text()`
(concatenated text of all descendant leaves, in document order),
`findAllTags` is `find_all([...])` (all matching descendants in document
order, self excluded), and `findTitleAux` performs `find("title")`
(first matching descendant in document order) while recording the tag name
of the title's immediate parent (`find_parent().name`) and whether the title
is a direct child of the searched node.
-/

/-- A parsed markup node: either a text leaf or an element with a tag name,
attributes and children.  The BeautifulSoup root object is represented as an
element whose tag name is `"[document]"` (its `name` in BeautifulSoup). -/
inductive Node where
  | text : List Char → Node
  | elem : String → List (String × List Char) → List Node → Node

/-- Tag name of a node (text leaves have none; `""`). -/
def Node.tag : Node → String
  | .text _ => ""
  | .elem t _ _ => t

/-- Attribute lookup, `tag.get(key)` with `None ↦ ""` as in
`linkend_text if linkend_text else ""`. -/
def attrGet (key : String) (attrs : List (String × List Char)) : List Char :=
  match attrs.find? (fun p => p.1 = key) with
  | some p => p.2
  | none => []

mutual
/-- `get_text()`: concatenation of all descendant text leaves in document
order. -/
def getText : Node → List Char
  | .text s => s
  | .elem _ _ kids => getTextList kids

/-- `get_text()` over a list of sibling nodes. -/
def getTextList : List Node → List Char
  | [] => []
  | n :: rest => getText n ++ getTextList rest
end

mutual
/-- The `for xref in struct.find_all("xref"): xref.replace_with(...)`
pre-pass: every `<xref>` node is replaced by a text leaf holding its
`linkend` attribute (empty if absent). -/
def replaceXrefs : Node → Node
  | .text s => .text s
  | .elem t attrs kids =>
    if t = "xref" then .text (attrGet "linkend" attrs)
    else .elem t attrs (replaceXrefsList kids)

/-- `replaceXrefs` over a list of sibling nodes. -/
def replaceXrefsList : List Node → List Node
  | [] => []
  | n :: rest => replaceXrefs n :: replaceXrefsList rest
end

mutual
/-- `find_all(tags)` restricted to one subtree: the node itself when its tag
matches, followed by its matching descendants, in document (pre)order. -/
def findAllNode (tags : List String) : Node → List Node
  | .text _ => []
  | .elem t a k => (if t ∈ tags then [Node.elem t a k] else []) ++ findAllList tags k

/-- `find_all(tags)` over a list of sibling subtrees, in document order. -/
def findAllList (tags : List String) : List Node → List Node
  | [] => []
  | n :: rest => findAllNode tags n ++ findAllList tags rest
end

/-- `node.find_all(tags)`: matching descendants of `node` (self excluded). -/
def findAllTags (tags : List String) (n : Node) : List Node :=
  match n with
  | .text _ => []
  | .elem _ _ kids => findAllList tags kids

mutual
/-- `find("title")` in one subtree: the first title element in document
(pre)order, together with the tag name of its immediate parent
(`find_parent().name`) and whether it is a direct child of the node the
search started from.  The direct-child flag is not computed by the source
(it only compares tag names); it is carried here so that theorems can speak
about actual direct parentage.  `parentTag`/`direct` describe the node
being visited. -/
def findTitleNode (parentTag : String) (direct : Bool) : Node → Option (Node × String × Bool)
  | .text _ => none
  | .elem t a k =>
    if t = "title" then some (.elem t a k, parentTag, direct)
    else findTitleList t false k

/-- `find("title")` over sibling subtrees. -/
def findTitleList (parentTag : String) (direct : Bool) : List Node → Option (Node × String × Bool)
  | [] => none
  | n :: rest =>
    match findTitleNode parentTag direct n with
    | some r => some r
    | none => findTitleList parentTag direct rest
end

/-- `_find_direct_child_title` (custom lines 136–156): take the first
`<title>` descendant; if its immediate parent's tag name equals the node's
tag name, return its text, else return the empty string. -/
def findDirectChildTitle (n : Node) : List Char :=
  match n with
  | .text _ => []
  | .elem t _ kids =>
    match findTitleList t true kids with
    | some (title, parentTag, _) => if parentTag = t then getText title else []
    | none => []

/-- Instrumentation projection: the parent tag name and direct-child flag of
the node's first `<title>` descendant in document order. -/
def firstTitleInfo (n : Node) : Option (String × Bool) :=
  match n with
  | .text _ => none
  | .elem t _ kids => (findTitleList t true kids).map (fun r => (r.2.1, r.2.2))

/-- Whether `n` has a `<title>` element among its direct children. -/
def hasDirectTitle (n : Node) : Bool :=
  match n with
  | .text _ => false
  | .elem _ _ kids => kids.any (fun k => k.tag = "title")

/-- First index at which `sep` occurs as a contiguous sublist of `s`. -/
def findOcc (sep : List Char) : List Char → Option Nat
  | [] => if sep.isPrefixOf ([] : List Char) then some 0 else none
  | c :: rest =>
    if sep.isPrefixOf (c :: rest) then some 0
    else (findOcc sep rest).map (· + 1)

/-- The recursion of Python `s.split(sep)` for a non-empty separator: split
at each left-to-right non-overlapping occurrence.  Each step removes at
least one character (an occurrence of the non-empty `sep`), so fuel
`s.length + 1` strictly exceeds the number of steps; the fuel-0 branch is
unreachable. -/
def strSplitGo (sep : List Char) : Nat → List Char → List (List Char)
  | 0, s => [s]
  | fuel + 1, s =>
    match findOcc sep s with
    | none => [s]
    | some i => s.take i :: strSplitGo sep fuel (s.drop (i + sep.length))

/-- Python `s.split(sep)`.  (Python raises `ValueError` on an empty
separator; the model returns `[s]` there — the claims under study never
depend on this case.) -/
def strSplit (sep s : List Char) : List (List Char) :=
  if sep = [] then [s] else strSplitGo sep (s.length + 1) s

/-- Python `sep.join(parts)`. -/
def strJoin (sep : List Char) (parts : List (List Char)) : List Char :=
  List.intercalate sep parts

/-- Python truthiness of `s.split()` (no argument): `True` iff `s` contains a
non-whitespace character. -/
def hasNonWS (s : List Char) : Bool :=
  s.any (fun c => !isPySpace c)

/-- The `Section` dataclass of `document_preprocessor_custom.py`. -/
structure Section where
  document : List Char
  chapter : List Char
  sect1 : List Char
  sect2 : List Char
  text : List Char
deriving DecidableEq, Repr

/-- The inner `for sect2 in sect2_list` loop of `_extract_section_list`
(custom lines 104–122), carrying the running `sect1_text`; returns the
appended sections and the final remaining `sect1_text`. -/
def processSect2s (doc chTitle s1Title : List Char) :
    List Node → List Char → List Section × List Char
  | [], s1Text => ([], s1Text)
  | s2 :: rest, s1Text =>
    let s2Title := findDirectChildTitle s2
    let s2Text := getText s2
    let parts := strSplit s2Text s1Text
    let preface := parts.headD []
    let s1Text' := strJoin s2Text (parts.drop 1)
    let here :=
      (if hasNonWS preface then [Section.mk doc chTitle s1Title [] preface] else [])
        ++ [Section.mk doc chTitle s1Title s2Title s2Text]
    let r := processSect2s doc chTitle s1Title rest s1Text'
    (here ++ r.1, r.2)

/-- The `for sect1 in sect1_list` loop of `_extract_section_list`
(custom lines 88–127), carrying the running `chapter_text`; returns the
appended sections and the final remaining `chapter_text`. -/
def processSect1s (doc chTitle : List Char) :
    List Node → List Char → List Section × List Char
  | [], chText => ([], chText)
  | s1 :: rest, chText =>
    let s1Title := findDirectChildTitle s1
    let s1Text := getText s1
    let parts := strSplit s1Text chText
    let chPreface := parts.headD []
    let chText' := strJoin s1Text (parts.drop 1)
    let prefaceSec :=
      if hasNonWS chPreface then [Section.mk doc chTitle [] [] chPreface] else []
    let r2 := processSect2s doc chTitle s1Title (findAllTags ["sect2"] s1) s1Text
    let remSec :=
      if hasNonWS r2.2 then [Section.mk doc chTitle s1Title [] r2.2] else []
    let r := processSect1s doc chTitle rest chText'
    (prefaceSec ++ r2.1 ++ remSec ++ r.1, r.2)

/-- The `for chapter in chapter_list` loop of `_extract_section_list`
(custom lines 84–132). -/
def processChapters (doc : List Char) : List Node → List Section
  | [] => []
  | ch :: rest =>
    let chTitle := findDirectChildTitle ch
    let chText := getText ch
    let r := processSect1s doc chTitle (findAllTags ["sect1"] ch) chText
    let remSec :=
      if hasNonWS r.2 then [Section.mk doc chTitle [] [] r.2] else []
    r.1 ++ remSec ++ processChapters doc rest

/-- The chapter-equivalent nodes the extractor iterates over: all
`<chapter>`/`<preface>` descendants, or the whole tree when there are none
(custom lines 77–82). -/
def chapterEquivs (root : Node) : List Node :=
  match findAllTags ["chapter", "preface"] root with
  | [] => [root]
  | l => l

/-- `_extract_section_list` (custom lines 63–134): xref substitution, then
the nested chapter/sect1/sect2 extraction. -/
def extractSectionList (doc : List Char) (root : Node) : List Section :=
  processChapters doc (chapterEquivs (replaceXrefs root))

/-- The breadcrumb heading lines prepended to each chunk of a section
(custom lines 46–57): `# document`, then `## chapter`, `### sect1`,
`#### sect2` for the non-empty heading fields. -/
def breadcrumb (sec : Section) : List (List Char) :=
  [['#', ' '] ++ sec.document]
    ++ (if sec.chapter ≠ [] then [['#', '#', ' '] ++ sec.chapter] else [])
    ++ (if sec.sect1 ≠ [] then [['#', '#', '#', ' '] ++ sec.sect1] else [])
    ++ (if sec.sect2 ≠ [] then [['#', '#', '#', '#', ' '] ++ sec.sect2] else [])

/-- `DocumentPreprocessorCustom.create_chunks` (custom lines 25–61): extract
sections, normalise and chunk each section's text, and join the breadcrumb
lines and the chunk body with newlines. -/
def createChunksCustom (calcF : List Char → Nat) (doc : List Char) (root : Node) :
    List (List Char) :=
  (extractSectionList doc root).flatMap (fun sec =>
    (chunkText calcF (normalizeText sec.text)).map (fun body =>
      strJoin ['\n'] (breadcrumb sec ++ [body])))

/-- `DocumentPreprocessor.create_chunks` (plain mode, lines 13–37): xref
substitution, text extraction, normalisation, chunking. -/
def createChunksPlain (calcF : List Char → Nat) (root : Node) : List (List Char) :=
  chunkText calcF (normalizeText (getText (replaceXrefs root)))

/-- The recursion of splitting into lines; each step consumes the first line
and its newline, so fuel `s.length + 1` is enough and the fuel-0 branch is
unreachable. -/
def linesGo : Nat → List Char → List (List Char)
  | 0, s => [s]
  | fuel + 1, s =>
    match s.dropWhile (fun c => c ≠ '\n') with
    | [] => [s.takeWhile (fun c => c ≠ '\n')]
    | _ :: tail => s.takeWhile (fun c => c ≠ '\n') :: linesGo fuel tail

/-- The lines of a string (split on newline), used to say "contains a
heading line". -/
def linesOf (s : List Char) : List (List Char) :=
  linesGo (s.length + 1) s

/-- Whether some line of `s` starts with the marker `m` (e.g. `"#### "`). -/
def hasHeadingLine (m : List Char) (s : List Char) : Bool :=
  (linesOf s).any (fun l => m.isPrefixOf l)

/-!
## Spec-side definitions and concrete instances

`backwardAdjustSpec` renders, word for word, the specification's description
of the final advance of the backward boundary search ("if the landing
character at `start` is not a sentence ending and `start > 0`, advance
by 1"), to be compared with the source's `backwardAdjust`.  The remaining
definitions are concrete inputs used in counterexamples and witnesses.
-/

/-- The backward boundary search as the specification describes it: after
the scan and word-break snap land on position `p`, advance by 1 exactly when
`p > 0` and the character at `p` is not a sentence ending. -/
def backwardAdjustSpec (text : List Char) (start : Int) : Int :=
  let p := backwardSnap text start
  if 0 < p ∧ pyIdx text p ∉ SENTENCE_ENDINGS then p + 1 else p

/-- A constant character-count estimate of 101 per window (a possible
oracle behaviour: the token budget is reached after 101 characters on every
suffix). -/
def calcK (_ : List Char) : Nat := 101

/-- The estimate that always covers the whole remaining suffix (the
estimator's behaviour whenever the remaining text is below the token
budget: the binary search exhausts at `len(text)`). -/
def calcLen (s : List Char) : Nat := s.length

/-- A two-character text, shorter than `CHUNK_OVERLAP`. -/
def tShort : List Char := ['A', '.']

/-- 101 identical letters — just above `CHUNK_OVERLAP`. -/
def t101 : List Char := List.replicate 101 'a'

/-- 103 characters: 101 letters, a period at index 101, a letter at 102. -/
def t103 : List Char := List.replicate 101 'a' ++ ['.', 'a']

/-- A token oracle that counts one token per character (`f s k = k` tokens
for the first `k` characters of any suffix `s`). -/
def charToken (_ : List Char) (k : Nat) : Nat := k

/-- 1310 characters: 899 letters, a period at index 899, 100 letters, a
period at index 1000, then 309 letters. -/
def t1310 : List Char :=
  List.replicate 899 'a' ++ ['.'] ++ List.replicate 100 'a' ++ ['.'] ++
    List.replicate 309 'a'

/-- Three characters with a sentence ending at index 1. -/
def tC6 : List Char := ['a', '.', 'b']

/-- `<sect1>` with no title of its own containing a titled `<sect2>` with a
long body (121 characters of text). -/
def treeUntitledSect1 : Node :=
  .elem "[document]" [] [
    .elem "sect1" [] [
      .elem "sect2" [] [
        .elem "title" [] [.text ['T']],
        .text (List.replicate 120 'a')]]]

/-- A fully titled chapter/sect1/sect2 chain with a long `<sect2>` body. -/
def treeTitled : Node :=
  .elem "[document]" [] [
    .elem "chapter" [] [
      .elem "title" [] [.text ['C']],
      .elem "sect1" [] [
        .elem "title" [] [.text ['S']],
        .elem "sect2" [] [
          .elem "title" [] [.text ['T']],
          .text (List.replicate 120 'a')]]]]

/-- A titled `<sect2>` whose whole text is 12 characters — below
`CHUNK_OVERLAP`, so the chunker emits nothing for it. -/
def treeShortSect2 : Node :=
  .elem "[document]" [] [
    .elem "sect1" [] [
      .elem "sect2" [] [
        .elem "title" [] [.text ['T']],
        .text ['s', 'h', 'o', 'r', 't', ' ', 'b', 'o', 'd', 'y', '.']]]]

/-- The section extracted from `treeUntitledSect1`. -/
def secU : Section :=
  ⟨['D'], [], [], ['T'], 'T' :: List.replicate 120 'a'⟩

/-- The `<sect2>` section extracted from `treeTitled`. -/
def secT : Section :=
  ⟨['D'], ['C'], ['S'], ['T'], 'T' :: List.replicate 120 'a'⟩

/-- The section extracted from `treeShortSect2`. -/
def secShort : Section :=
  ⟨['D'], [], [], ['T'], ['T', 's', 'h', 'o', 'r', 't', ' ', 'b', 'o', 'd', 'y', '.']⟩

/-- A `<sect1>` whose first `<title>` in document order sits inside a nested
`<sect1>`, followed by the node's own direct `<title>`. -/
def nodeNestedSameTag : Node :=
  .elem "sect1" [] [
    .elem "sect1" [] [.elem "title" [] [.text ['X']]],
    .elem "title" [] [.text ['Y']]]

/-- A `<sect1>` whose first `<title>` in document order sits inside a
`<sect2>` (a differently-tagged descendant), followed by the node's own
direct `<title>`. -/
def nodeDeeperOtherTag : Node :=
  .elem "sect1" [] [
    .elem "sect2" [] [.elem "title" [] [.text ['X']]],
    .elem "title" [] [.text ['Y']]]

/-!
## Theorems

### C7 — the token estimator stays within `[0, len(text)]`
-/

theorem calcCharLengthGo_bounds (f : Nat → Nat) (target : Nat) (hf : f 0 = 0)
    (n : Nat) :
    ∀ (fuel : Nat) (low high : Int), 0 ≤ low → low ≤ (n : Int) + 1 →
      high ≤ (n : Int) → -1 ≤ high → (high = -1 → 1 ≤ low) →
      0 ≤ calcCharLengthGo f target fuel low high ∧
        calcCharLengthGo f target fuel low high ≤ (n : Int) := by
  intro fuel
  induction fuel with
  | zero =>
    intro low high h0 h1 h2 h3 h4
    simp only [calcCharLengthGo]
    rw [Int.fdiv_eq_ediv _ (by norm_num)]
    omega
  | succ fuel ih =>
    intro low high h0 h1 h2 h3 h4
    simp only [calcCharLengthGo]
    split
    · rename_i hle
      have hme : (low + high).fdiv 2 = (low + high) / 2 :=
        Int.fdiv_eq_ediv _ (by norm_num)
      rw [hme]
      split
    
      · omega
      · split
        · exact ih ((low + high) / 2 + 1) high (by omega) (by omega) h2 h3 (by omega)
        · rename_i hne hnlt
          have hmid0 : (low + high) / 2 ≠ 0 := by
            intro hm0
            rw [hm0] at hne hnlt
            simp only [Int.toNat_zero, hf, Nat.cast_zero] at hne hnlt
            omega
          exact ih low ((low + high) / 2 - 1) h0 h1 (by omega) (by omega) (by omega)
    · rw [Int.fdiv_eq_ediv _ (by norm_num)]
      omega

/-- C7: for every token oracle `f` (with the tokenizer's property that the
empty prefix has zero tokens) and every text length `n` and target token
count, `_calc_char_length_from_tokens` returns `k` with `0 ≤ k ≤ n` — both
through the exact-match short-circuit and through the post-exhaustion
`(low + high) // 2`. -/
theorem tokenEstimator_in_bounds (f : Nat → Nat) (n target : Nat)
    (hf : f 0 = 0) :
    0 ≤ calcCharLength f n target ∧ calcCharLength f n target ≤ (n : Int) :=
  calcCharLengthGo_bounds f target hf n (n + 2) 0 n (by omega) (by omega)
    (by omega) (by omega) (by omega)

/-- Witness for C7 at the identity oracle on a text of length 5 with target
3 (the search returns 3). -/
theorem tokenEstimator_in_bounds_witness :
    id 0 = 0 ∧
      (0 ≤ calcCharLength id 5 3 ∧ calcCharLength id 5 3 ≤ (5 : Int)) :=
  ⟨rfl, tokenEstimator_in_bounds id 5 3 rfl⟩

/-!
### C2 — texts no longer than `CHUNK_OVERLAP` yield no chunks
-/

/-- C2: for every estimator and every non-empty text of length at most
`CHUNK_OVERLAP = 100`, `_chunk_text` returns the empty list: the loop
condition `start + CHUNK_OVERLAP < length` is false at entry, and the
trailing check `start + CHUNK_OVERLAP < end` (with `start = 0`,
`end = length`) is false as well. -/
theorem chunkText_short_empty (calcF : List Char → Nat) (text : List Char)
    (hpos : 0 < text.length) (hle : text.length ≤ 100) :
    chunkText calcF text = [] := by
  have hc : ¬((0 : Int) + CHUNK_OVERLAP < (text.length : Int)) := by
    simp only [CHUNK_OVERLAP]
    omega
  simp only [chunkText, chunkTextGo, hc, if_false]

/-- Witness for C2 at the two-character text `"A."`. -/
theorem chunkText_short_empty_witness :
    (0 < tShort.length ∧ tShort.length ≤ 100) ∧ chunkText calcK tShort = [] :=
  ⟨⟨by decide, by decide⟩, chunkText_short_empty calcK tShort (by decide) (by decide)⟩

/-!
### C6 — the advance after the backward boundary search
-/

/-- C6 counterexample: the source advances `start` whenever the landing
position is positive, even when the landing character **is** a sentence
ending; the specification's step (`backwardAdjustSpec`) does not.  On
`tC6 = "a.b"` with `start = 1` the scan lands on the `'.'` at index 1:
the code produces 2, the specified step produces 1. -/
theorem backward_advance_differs_from_spec :
    backwardAdjust tC6 1 = 2 ∧ backwardAdjustSpec tC6 1 = 1 := by
  constructor <;> decide

/-- C6 amended: after the backward scan and word-break snap land on `p`,
`start` is advanced by 1 exactly when `p > 0` — regardless of whether the
landing character is a sentence ending. -/
theorem backward_advance_iff_pos (text : List Char) (start : Int) :
    backwardAdjust text start =
      (let p := backwardSnap text start
       if 0 < p then p + 1 else p) := by
  simp only [backwardAdjust, backwardSnap]

/-!
### C8 — idempotence of normalisation
-/

lemma okMid_append_of_no_nl {u : List Char} (v : List Char)
    (hu : ∀ c ∈ u, c ≠ '\n') : okMid (u ++ v) = okMid v := by
  induction u with
  | nil => rfl
  | cons c w ih =>
    have hc : c ≠ '\n' := hu c (by simp)
    simp only [List.cons_append, okMid, if_neg hc]
    exact ih (fun d hd => hu d (by simp [hd]))

lemma okAfterNL_append_of_all_nl {u : List Char} (v : List Char)
    (hu : ∀ c ∈ u, c = '\n') : okAfterNL (u ++ v) = okAfterNL v := by
  induction u with
  | nil => rfl
  | cons c w ih =>
    have hc : c = '\n' := hu c (by simp)
    simp only [List.cons_append, okAfterNL, if_pos hc]
    exact ih (fun d hd => hu d (by simp [hd]))

lemma okMid_of_no_nl {u : List Char} (hu : ∀ c ∈ u, c ≠ '\n') :
    okMid u = true := by
  induction u with
  | nil => rfl
  | cons c w ih =>
    have hc : c ≠ '\n' := hu c (by simp)
    simp only [okMid, if_neg hc]
    exact ih (fun d hd => hu d (by simp [hd]))

lemma noTripleAux_mono {l : List Char} :
    ∀ {i j : Nat}, i ≤ j → noTripleAux j l = true → noTripleAux i l = true := by
  induction l with
  | nil => intro i j _ _; rfl
  | cons c rest ih =>
    intro i j hij h
    by_cases hc : c = '\n'
    · simp only [noTripleAux, if_pos hc] at h ⊢
      by_cases hj : 2 ≤ j
      · simp [hj] at h
      · have hi : ¬ 2 ≤ i := by omega
        simp only [hj, if_false] at h
        simp only [hi, if_false]
        exact ih (by omega) h
    · simp only [noTripleAux, if_neg hc] at h ⊢
      exact h

lemma noTripleAux_run_le {l : List Char} :
    ∀ {k : Nat}, k ≤ 2 → noTripleAux k l = true →
      k + (l.takeWhile (fun d => d = '\n')).length ≤ 2 := by
  induction l with
  | nil => intro k hk _; simpa using hk
  | cons c rest ih =>
    intro k hk h
    by_cases hc : c = '\n'
    · simp only [noTripleAux, if_pos hc] at h
      by_cases h2 : 2 ≤ k
      · simp [h2] at h
      · simp only [h2, if_false] at h
        have := @ih (k + 1) (by omega) h
        simp only [List.takeWhile_cons, hc]
        simp only [decide_eq_true_eq, if_true, List.length_cons]
        omega
    · simp only [List.takeWhile_cons]
      simp only [decide_eq_true_eq, hc, if_false]
      simpa using hk

lemma noTripleAux_dropRun {l : List Char} :
    ∀ {k : Nat}, noTripleAux k l = true →
      noTripleAux 0 (l.dropWhile (fun d => d = '\n')) = true := by
  induction l with
  | nil => intro k _; rfl
  | cons c rest ih =>
    intro k h
    by_cases hc : c = '\n'
    · simp only [noTripleAux, if_pos hc] at h
      by_cases h2 : 2 ≤ k
      · simp [h2] at h
      · simp only [h2, if_false] at h
        simpa [List.dropWhile_cons, hc] using ih h
    · simp only [noTripleAux, if_neg hc] at h
      simp only [List.dropWhile_cons]
      simp only [decide_eq_true_eq, hc, if_false]
      simp only [noTripleAux, if_neg hc]
      exact h

lemma collapseNL_nil : collapseNL [] = [] := by rw [collapseNL]

lemma collapseNL_cons_nl (rest : List Char) : collapseNL ('\n' :: rest) =
    (if 3 ≤ (rest.takeWhile (fun d => d = '\n')).length + 1 then ['\n', '\n']
     else '\n' :: rest.takeWhile (fun d => d = '\n'))
      ++ collapseNL (rest.dropWhile (fun d => d = '\n')) := by
  rw [collapseNL]
  simp

lemma collapseNL_cons_of_ne (c : Char) (rest : List Char) (hc : c ≠ '\n') :
    collapseNL (c :: rest) = c :: collapseNL rest := by
  rw [collapseNL]
  simp [hc]

lemma dropWhile_head_false {p : Char → Bool} {l : List Char} {d : Char}
    {w : List Char} (h : l.dropWhile p = d :: w) : p d = false := by
  induction l with
  | nil => simp at h
  | cons c rest ih =>
    rw [List.dropWhile_cons] at h
    split at h
    · exact ih h
    · rename_i hp
      cases h
      simpa using hp

lemma stripLines_of_dropWhile_nil {s : List Char}
    (h : s.dropWhile (fun c => c ≠ '\n') = []) :
    stripLines s = (s.takeWhile (fun c => c ≠ '\n')).dropWhile isPySpace := by
  rw [stripLines]
  split
  · rfl
  · rename_i x tail heq
    rw [h] at heq
    simp at heq

lemma stripLines_of_dropWhile_cons {s : List Char} {x : Char} {tail : List Char}
    (h : s.dropWhile (fun c => c ≠ '\n') = x :: tail) :
    stripLines s =
      (s.takeWhile (fun c => c ≠ '\n')).dropWhile isPySpace ++ '\n' :: stripLines tail := by
  rw [stripLines]
  split
  · rename_i heq
    rw [heq] at h
    simp at h
  · rename_i y tail' heq
    rw [heq] at h
    cases h
    rfl

/-- `collapseNL` output never contains three consecutive newlines. -/
theorem noTriple_collapseNL (t : List Char) : noTriple (collapseNL t) = true := by
  match t with
  | [] => rw [collapseNL_nil]; rfl
  | c :: rest =>
    by_cases hc : c = '\n'
    · subst hc
      rw [collapseNL_cons_nl]
      have ih := noTriple_collapseNL (rest.dropWhile (fun d => d = '\n'))
      have hhead : collapseNL (rest.dropWhile (fun d => d = '\n')) = [] ∨
          ∃ d w, collapseNL (rest.dropWhile (fun d => d = '\n')) = d :: w ∧ d ≠ '\n' := by
        cases hdw : rest.dropWhile (fun d => d = '\n') with
        | nil => left; rw [collapseNL_nil]
        | cons d w =>
          right
          have hd : ¬ (d = '\n') := by
            have := dropWhile_head_false hdw
            simpa using this
          exact ⟨d, collapseNL w, collapseNL_cons_of_ne d w hd, hd⟩
      set v := collapseNL (rest.dropWhile (fun d => d = '\n')) with hv
      have key : ∀ m : Nat, m ≤ 2 → noTripleAux (2 - m) (List.replicate m '\n' ++ v) = true := by
        intro m hm
        induction m with
        | zero =>
          simp only [List.replicate, List.nil_append]
          rcases hhead with h0 | ⟨d, w, hdw, hd⟩
          · rw [h0]; rfl
          · rw [hdw]
            rw [hdw] at ih
            simp only [noTriple, noTripleAux, if_neg hd] at ih ⊢
            exact ih
        | succ m ihm =>
          simp only [List.replicate, List.cons_append, noTripleAux]
          have h2 : ¬ (2 ≤ 2 - (m + 1)) := by omega
          simp only [if_pos rfl, h2, if_false]
          have : 2 - (m + 1) + 1 = 2 - m := by omega
          rw [this]
          exact ihm (by omega)
      split
      · have := key 2 (by omega)
        simpa [noTriple, List.replicate] using this
      · rename_i hlen
        have hrun : (rest.takeWhile (fun d => d = '\n')).length ≤ 1 := by omega
        have hall : ∀ d ∈ rest.takeWhile (fun d => d = '\n'), d = '\n' := by
          intro d hd
          simpa using List.mem_takeWhile_imp hd
        cases htw : rest.takeWhile (fun d => d = '\n') with
        | nil =>
          have h1 := key 1 (by omega)
          have h0 : noTripleAux 0 ('\n' :: v) = true := noTripleAux_mono (by omega)
            (by simpa [List.replicate] using h1)
          simpa [noTriple, List.replicate] using h0
        | cons d w =>
          have hd : d = '\n' := hall d (by rw [htw]; simp)
          have hw : w = [] := by
            rw [htw] at hrun
            simp only [List.length_cons] at hrun
            exact List.eq_nil_of_length_eq_zero (by omega)
          subst hd hw
          have := key 2 (by omega)
          simpa [noTriple, List.replicate] using this
    · rw [collapseNL_cons_of_ne c rest hc]
      have ih := noTriple_collapseNL rest
      simp only [noTriple, noTripleAux, if_neg hc] at ih ⊢
      exact ih
termination_by t.length
decreasing_by
  · have h1 : (rest.dropWhile (fun d => d = '\n')).length ≤ rest.length :=
      (List.dropWhile_sublist (fun d => d = '\n')).length_le
    simp only [List.length_cons]
    omega
  · simp only [List.length_cons]; omega

/-- A text without triple newlines is a fixed point of `collapseNL`. -/
theorem collapseNL_of_noTriple (t : List Char) (h : noTriple t = true) :
    collapseNL t = t := by
  match t with
  | [] => exact collapseNL_nil
  | c :: rest =>
    by_cases hc : c = '\n'
    · subst hc
      have h1 : noTripleAux 1 rest = true := by
        simpa [noTriple, noTripleAux] using h
      have hrun : (rest.takeWhile (fun d => d = '\n')).length ≤ 1 := by
        have hrl : 1 + (rest.takeWhile (fun d => d = '\n')).length ≤ 2 :=
          noTripleAux_run_le (by omega) h1
        have := hrl
        omega
      have htail : noTriple (rest.dropWhile (fun d => d = '\n')) = true :=
        noTripleAux_dropRun h1
      have ihc := collapseNL_of_noTriple (rest.dropWhile (fun d => d = '\n')) htail
      rw [collapseNL_cons_nl, ihc, if_neg (by omega)]
      simp [List.takeWhile_append_dropWhile]
    · have h0 : noTriple rest = true := by
        simpa [noTriple, noTripleAux, if_neg hc] using h
      rw [collapseNL_cons_of_ne c rest hc, collapseNL_of_noTriple rest h0]
termination_by t.length
decreasing_by
  · have h1 : (rest.dropWhile (fun d => d = '\n')).length ≤ rest.length :=
      (List.dropWhile_sublist (fun d => d = '\n')).length_le
    simp only [List.length_cons]
    omega
  · simp only [List.length_cons]; omega

/-- `collapseNL` preserves the `stripLines` normal form (it only shortens
newline runs, never removes a run or merges two lines). -/
theorem collapseNL_ok (t : List Char) :
    (okAfterNL t = true → okAfterNL (collapseNL t) = true) ∧
      (okMid t = true → okMid (collapseNL t) = true) := by
  match t with
  | [] => simp [collapseNL_nil]
  | c :: rest =>
    by_cases hc : c = '\n'
    · subst hc
      have hall : ∀ d ∈ rest.takeWhile (fun d => d = '\n'), d = '\n' := by
        intro d hd
        simpa using List.mem_takeWhile_imp hd
      have hsplit : rest.takeWhile (fun d => d = '\n') ++
          rest.dropWhile (fun d => d = '\n') = rest :=
        List.takeWhile_append_dropWhile _ _
      have hrest : okAfterNL rest =
          okAfterNL (rest.dropWhile (fun d => d = '\n')) := by
        conv_lhs => rw [← hsplit]
        exact okAfterNL_append_of_all_nl _ hall
      have ihc := collapseNL_ok (rest.dropWhile (fun d => d = '\n'))
      rw [collapseNL_cons_nl]
      constructor
      · intro hok
        have hok' : okAfterNL ('\n' :: rest) = okAfterNL rest := by
          simp [okAfterNL]
        rw [hok', hrest] at hok
        have htl := ihc.1 hok
        split
        · simpa [okAfterNL] using htl
        · rw [List.cons_append]
          have : okAfterNL (rest.takeWhile (fun d => d = '\n') ++
              collapseNL (rest.dropWhile (fun d => d = '\n'))) =
              okAfterNL (collapseNL (rest.dropWhile (fun d => d = '\n'))) :=
            okAfterNL_append_of_all_nl _ hall
          simpa [okAfterNL, this] using htl
      · intro hok
        have hok' : okMid ('\n' :: rest) = okAfterNL rest := by
          simp [okMid]
        rw [hok', hrest] at hok
        have htl := ihc.1 hok
        split
        · simpa [okMid, okAfterNL] using htl
        · rw [List.cons_append]
          have : okAfterNL (rest.takeWhile (fun d => d = '\n') ++
              collapseNL (rest.dropWhile (fun d => d = '\n'))) =
              okAfterNL (collapseNL (rest.dropWhile (fun d => d = '\n'))) :=
            okAfterNL_append_of_all_nl _ hall
          simpa [okMid, this] using htl
    · have ihr := collapseNL_ok rest
      rw [collapseNL_cons_of_ne c rest hc]
      constructor
      · intro hok
        simp only [okAfterNL, if_neg hc, Bool.and_eq_true] at hok ⊢
        exact ⟨hok.1, ihr.2 hok.2⟩
      · intro hok
        simp only [okMid, if_neg hc] at hok ⊢
        exact ihr.2 hok
termination_by t.length
decreasing_by
  · have h1 : (rest.dropWhile (fun d => d = '\n')).length ≤ rest.length :=
      (List.dropWhile_sublist (fun d => d = '\n')).length_le
    simp only [List.length_cons]
    omega
  · simp only [List.length_cons]; omega

/-- `stripLines` output is in normal form: every line starts with a
non-whitespace character. -/
theorem okAfterNL_stripLines (s : List Char) :
    okAfterNL (stripLines s) = true := by
  cases hdw : s.dropWhile (fun c => c ≠ '\n') with
  | nil =>
    rw [stripLines_of_dropWhile_nil hdw]
    cases hr : (s.takeWhile (fun c => c ≠ '\n')).dropWhile isPySpace with
    | nil => rfl
    | cons d u =>
      have hd : isPySpace d = false := dropWhile_head_false hr
      have humem : ∀ x ∈ d :: u, x ≠ '\n' := by
        intro x hx
        have hmem : x ∈ (s.takeWhile (fun c => c ≠ '\n')).dropWhile isPySpace := by
          rw [hr]; exact hx
        have hmem2 : x ∈ s.takeWhile (fun c => c ≠ '\n') :=
          (List.dropWhile_sublist isPySpace).subset hmem
        simpa using List.mem_takeWhile_imp hmem2
      have hdne : d ≠ '\n' := humem d (by simp)
      have hu : ∀ x ∈ u, x ≠ '\n' := fun x hx => humem x (by simp [hx])
      simp only [okAfterNL, if_neg hdne, hd, Bool.not_false, Bool.true_and]
      exact okMid_of_no_nl hu
  | cons x tail =>
    rw [stripLines_of_dropWhile_cons hdw]
    have htl : tail.length < s.length := by
      have h1 : (s.dropWhile (fun c => c ≠ '\n')).length ≤ s.length :=
        (List.dropWhile_sublist (fun c => c ≠ '\n')).length_le
      rw [hdw] at h1
      simp only [List.length_cons] at h1
      omega
    have ih := okAfterNL_stripLines tail
    cases hr : (s.takeWhile (fun c => c ≠ '\n')).dropWhile isPySpace with
    | nil =>
      simp only [List.nil_append, okAfterNL, if_pos rfl]
      exact ih
    | cons d u =>
      have hd : isPySpace d = false := dropWhile_head_false hr
      have humem : ∀ y ∈ d :: u, y ≠ '\n' := by
        intro y hy
        have hmem : y ∈ (s.takeWhile (fun c => c ≠ '\n')).dropWhile isPySpace := by
          rw [hr]; exact hy
        have hmem2 : y ∈ s.takeWhile (fun c => c ≠ '\n') :=
          (List.dropWhile_sublist isPySpace).subset hmem
        simpa using List.mem_takeWhile_imp hmem2
      have hdne : d ≠ '\n' := humem d (by simp)
      have hu : ∀ y ∈ u, y ≠ '\n' := fun y hy => humem y (by simp [hy])
      simp only [List.cons_append, okAfterNL, if_neg hdne, hd, Bool.not_false,
        Bool.true_and]
      simp only [List.append_eq]
      rw [okMid_append_of_no_nl _ hu]
      simp only [okMid, if_pos rfl]
      exact ih
termination_by s.length

/-- A text in normal form is a fixed point of `stripLines`. -/
theorem stripLines_of_okAfterNL (t : List Char) (h : okAfterNL t = true) :
    stripLines t = t := by
  cases hdw : t.dropWhile (fun c => c ≠ '\n') with
  | nil =>
    rw [stripLines_of_dropWhile_nil hdw]
    have hts := List.takeWhile_append_dropWhile (fun c => c ≠ '\n') t
    rw [hdw, List.append_nil] at hts
    rw [hts]
    cases hc : t with
    | nil => rfl
    | cons c w =>
      have hcne : c ≠ '\n' := by
        intro hceq
        rw [hc] at hdw
        rw [List.dropWhile_cons_of_neg (by simp [hceq])] at hdw
        simp at hdw
      rw [hc] at h
      simp only [okAfterNL, if_neg hcne, Bool.and_eq_true] at h
      have hsp : isPySpace c = false := by simpa using h.1
      exact List.dropWhile_cons_of_neg (by simp [hsp])
  | cons x tail =>
    rw [stripLines_of_dropWhile_cons hdw]
    have hx : x = '\n' := by simpa using dropWhile_head_false hdw
    subst hx
    have htl : tail.length < t.length := by
      have h1 : (t.dropWhile (fun c => c ≠ '\n')).length ≤ t.length :=
        (List.dropWhile_sublist (fun c => c ≠ '\n')).length_le
      rw [hdw] at h1
      simp only [List.length_cons] at h1
      omega
    have hts := List.takeWhile_append_dropWhile (fun c => c ≠ '\n') t
    rw [hdw] at hts
    have hlinemem : ∀ y ∈ t.takeWhile (fun c => c ≠ '\n'), y ≠ '\n' := by
      intro y hy
      simpa using List.mem_takeWhile_imp hy
    have hud : (t.takeWhile (fun c => c ≠ '\n')).dropWhile isPySpace =
        t.takeWhile (fun c => c ≠ '\n') := by
      cases hl : t.takeWhile (fun c => c ≠ '\n') with
      | nil => rfl
      | cons d u =>
        have hdne : d ≠ '\n' := hlinemem d (by rw [hl]; simp)
        have hteq : t = d :: (u ++ '\n' :: tail) := by
          rw [← hts, hl]
          simp
        rw [hteq] at h
        simp only [okAfterNL, if_neg hdne, Bool.and_eq_true] at h
        have hsp : isPySpace d = false := by simpa using h.1
        exact List.dropWhile_cons_of_neg (by simp [hsp])
    have htail_ok : okAfterNL tail = true := by
      rw [← hts] at h
      cases hl : t.takeWhile (fun c => c ≠ '\n') with
      | nil =>
        rw [hl] at h
        simpa [okAfterNL] using h
      | cons d u =>
        rw [hl] at h
        have hdne : d ≠ '\n' := hlinemem d (by rw [hl]; simp)
        simp only [List.cons_append, okAfterNL, if_neg hdne, Bool.and_eq_true] at h
        have hu : ∀ y ∈ u, y ≠ '\n' := by
          intro y hy
          exact hlinemem y (by rw [hl]; simp [hy])
        have h2 := h.2
        simp only [List.append_eq] at h2
        rw [okMid_append_of_no_nl _ hu] at h2
        simpa [okMid] using h2
    rw [hud, stripLines_of_okAfterNL tail htail_ok]
    exact hts
termination_by t.length

/-- C8: the normalisation (strip leading whitespace from every line, then
collapse every run of 3 or more newlines to exactly 2) is idempotent. -/
theorem normalizeText_idempotent (s : List Char) :
    normalizeText (normalizeText s) = normalizeText s := by
  unfold normalizeText
  have h1 : okAfterNL (stripLines s) = true := okAfterNL_stripLines s
  have h2 : okAfterNL (collapseNL (stripLines s)) = true := (collapseNL_ok _).1 h1
  rw [stripLines_of_okAfterNL _ h2,
    collapseNL_of_noTriple _ (noTriple_collapseNL _)]

/-- A text already in normal form (no line-leading whitespace, no triple
newline) is a fixed point of the normalisation; used to evaluate
`normalizeText` on concrete inputs. -/
lemma normalizeText_fixed (t : List Char) (h1 : okAfterNL t = true)
    (h2 : noTriple t = true) : normalizeText t = t := by
  unfold normalizeText
  rw [stripLines_of_okAfterNL t h1, collapseNL_of_noTriple t h2]

/-!
### Extractor lemmas (shared by C4, C5, C9)
-/

lemma processSect2s_mem {doc chT s1T : List Char} :
    ∀ (s2s : List Node) (s1Text : List Char) (sec : Section),
      sec ∈ (processSect2s doc chT s1T s2s s1Text).1 →
      sec.chapter = chT ∧ sec.sect1 = s1T ∧
        (sec.sect2 = [] ∨ ∃ s2 ∈ s2s, sec.sect2 = findDirectChildTitle s2 ∧
          sec.text = getText s2) := by
  intro s2s
  induction s2s with
  | nil =>
    intro s1Text sec h
    simp [processSect2s] at h
  | cons s2 rest ih =>
    intro s1Text sec h
    simp only [processSect2s, List.append_assoc, List.mem_append] at h
    rcases h with h | h
    · split at h
      · simp only [List.mem_singleton] at h
        subst h
        exact ⟨rfl, rfl, Or.inl rfl⟩
      · simp at h
    · rcases h with h | h
      · simp only [List.mem_singleton] at h
        subst h
        exact ⟨rfl, rfl, Or.inr ⟨s2, by simp, rfl, rfl⟩⟩
      · obtain ⟨h1, h2, h3⟩ := ih _ sec h
        refine ⟨h1, h2, ?_⟩
        rcases h3 with h3 | ⟨s2', hm, he⟩
        · exact Or.inl h3
        · exact Or.inr ⟨s2', by simp [hm], he⟩

lemma processSect1s_mem {doc chT : List Char} :
    ∀ (s1s : List Node) (chText : List Char) (sec : Section),
      sec ∈ (processSect1s doc chT s1s chText).1 →
      sec.chapter = chT ∧
        (sec.sect2 = [] ∨ ∃ s1 ∈ s1s, ∃ s2 ∈ findAllTags ["sect2"] s1,
          sec.sect1 = findDirectChildTitle s1 ∧
          sec.sect2 = findDirectChildTitle s2 ∧ sec.text = getText s2) := by
  intro s1s
  induction s1s with
  | nil =>
    intro chText sec h
    simp [processSect1s] at h
  | cons s1 rest ih =>
    intro chText sec h
    simp only [processSect1s, List.append_assoc, List.mem_append] at h
    rcases h with h | h
    · split at h
      · simp only [List.mem_singleton] at h
        subst h
        exact ⟨rfl, Or.inl rfl⟩
      · simp at h
    · rcases h with h | h
      · obtain ⟨h1, h2, h3⟩ := processSect2s_mem _ _ sec h
        refine ⟨h1, ?_⟩
        rcases h3 with h3 | ⟨s2, hm, he2, he3⟩
        · exact Or.inl h3
        · exact Or.inr ⟨s1, by simp, s2, hm, h2, he2, he3⟩
      · rcases h with h | h
        · split at h
          · simp only [List.mem_singleton] at h
            subst h
            exact ⟨rfl, Or.inl rfl⟩
          · simp at h
        · obtain ⟨h1, h2⟩ := ih _ sec h
          refine ⟨h1, ?_⟩
          rcases h2 with h2 | ⟨s1', hm, he⟩
          · exact Or.inl h2
          · exact Or.inr ⟨s1', by simp [hm], he⟩

lemma processChapters_mem {doc : List Char} :
    ∀ (chs : List Node) (sec : Section), sec ∈ processChapters doc chs →
      (∃ ch ∈ chs, sec.chapter = findDirectChildTitle ch) ∧
        (sec.sect2 = [] ∨ ∃ ch ∈ chs, ∃ s1 ∈ findAllTags ["sect1"] ch,
          ∃ s2 ∈ findAllTags ["sect2"] s1,
          sec.sect1 = findDirectChildTitle s1 ∧
          sec.sect2 = findDirectChildTitle s2 ∧ sec.text = getText s2) := by
  intro chs
  induction chs with
  | nil =>
    intro sec h
    simp [processChapters] at h
  | cons ch rest ih =>
    intro sec h
    simp only [processChapters, List.append_assoc, List.mem_append] at h
    rcases h with h | h
    · obtain ⟨h1, h2⟩ := processSect1s_mem _ _ sec h
      refine ⟨⟨ch, by simp, h1⟩, ?_⟩
      rcases h2 with h2 | ⟨s1, hm1, s2, hm2, he⟩
      · exact Or.inl h2
      · exact Or.inr ⟨ch, by simp, s1, hm1, s2, hm2, he⟩
    · rcases h with h | h
      · split at h
        · simp only [List.mem_singleton] at h
          subst h
          exact ⟨⟨ch, by simp, rfl⟩, Or.inl rfl⟩
        · simp at h
      · obtain ⟨⟨ch', hm', h1⟩, h2⟩ := ih sec h
        refine ⟨⟨ch', by simp [hm'], h1⟩, ?_⟩
        rcases h2 with h2 | ⟨ch'', hm'', he⟩
        · exact Or.inl h2
        · exact Or.inr ⟨ch'', by simp [hm''], he⟩

/-!
### C4 — `sect2` non-empty implies `sect1` non-empty
-/

/-- C4 counterexample: on a document whose `<sect1>` has no direct title but
whose `<sect2>` is titled, the extractor emits exactly one Section with
`sect2 = "T"` non-empty and `sect1 = ""` empty, violating the claimed
invariant. -/
theorem sect2_nonempty_with_empty_sect1 :
    (extractSectionList ['D'] treeUntitledSect1).map (fun s => (s.sect1, s.sect2))
      = [(([] : List Char), ['T'])] := by
  decide

/-- C4 amended: when every `<sect1>` node (under every chapter-equivalent
node) has a non-empty direct-child title, every extracted Section with
non-empty `sect2` also has non-empty `sect1`.  (The counterexample shows the
unconditional claim fails exactly when a `sect1` lacks its direct title.) -/
theorem sect2_nonempty_implies_sect1_of_titled (doc : List Char) (root : Node)
    (ht : ∀ ch ∈ chapterEquivs (replaceXrefs root),
      ∀ s1 ∈ findAllTags ["sect1"] ch, findDirectChildTitle s1 ≠ []) :
    ∀ sec ∈ extractSectionList doc root, sec.sect2 ≠ [] → sec.sect1 ≠ [] := by
  intro sec hmem h2
  obtain ⟨-, hdisj⟩ := processChapters_mem _ sec hmem
  rcases hdisj with h0 | ⟨ch, hchm, s1, hs1, s2, hs2, he1, he2, he3⟩
  · exact absurd h0 h2
  · rw [he1]
    exact ht ch hchm s1 hs1

/-- Witness for C4 (amended) on the fully titled document `treeTitled`. -/
theorem sect2_nonempty_implies_sect1_of_titled_witness :
    (∀ ch ∈ chapterEquivs (replaceXrefs treeTitled),
      ∀ s1 ∈ findAllTags ["sect1"] ch, findDirectChildTitle s1 ≠ []) ∧
      (∀ sec ∈ extractSectionList ['D'] treeTitled,
        sec.sect2 ≠ [] → sec.sect1 ≠ []) :=
  ⟨by decide, sect2_nonempty_implies_sect1_of_titled ['D'] treeTitled (by decide)⟩

/-!
### C9 — the `sect2` breadcrumb title occurs inside the section text
-/

lemma infix_append_right {t a b : List Char} (h : t <:+: a) : t <:+: a ++ b := by
  obtain ⟨s, u, rfl⟩ := h
  exact ⟨s, u ++ b, by simp⟩

lemma infix_append_left {t a b : List Char} (h : t <:+: b) : t <:+: a ++ b := by
  obtain ⟨s, u, rfl⟩ := h
  exact ⟨a ++ s, u, by simp⟩

mutual
theorem findTitleNode_text_occurs (pt : String) (d : Bool) (n : Node)
    (r : Node × String × Bool) (h : findTitleNode pt d n = some r) :
    getText r.1 <:+: getText n := by
  match n with
  | .text s => simp [findTitleNode] at h
  | .elem t a k =>
    simp only [findTitleNode] at h
    split at h
    · cases h
      exact List.infix_rfl
    · have hk := findTitleList_text_occurs t false k r h
      simpa [getText] using hk

theorem findTitleList_text_occurs (pt : String) (d : Bool) (l : List Node)
    (r : Node × String × Bool) (h : findTitleList pt d l = some r) :
    getText r.1 <:+: getTextList l := by
  match l with
  | [] => simp [findTitleList] at h
  | n :: rest =>
    simp only [findTitleList] at h
    cases hfn : findTitleNode pt d n with
    | some r2 =>
      rw [hfn] at h
      have hr : r2 = r := by simpa using h
      exact hr ▸ infix_append_right (findTitleNode_text_occurs pt d n r2 hfn)
    | none =>
      rw [hfn] at h
      exact infix_append_left (findTitleList_text_occurs pt d rest r h)
end

lemma findDirectChildTitle_text_occurs (n : Node) :
    findDirectChildTitle n <:+: getText n := by
  match n with
  | .text s => simp [findDirectChildTitle]
  | .elem t a kids =>
    simp only [findDirectChildTitle]
    cases hf : findTitleList t true kids with
    | none => simp
    | some r =>
      obtain ⟨title, ptag, dir⟩ := r
      by_cases hpt : ptag = t
      · simp only [if_pos hpt]
        have := findTitleList_text_occurs t true kids _ hf
        simpa [getText] using this
      · simp [hpt]

/-- C9 counterexample: for the short titled `<sect2>` document
`treeShortSect2`, the extracted section has non-empty `sect2` (`"T"`), but
the chunker emits **no** chunk for its 12-character text, so the title
appears in no chunk body at all (nor in any breadcrumb, since no chunk is
emitted). -/
theorem title_in_no_chunk_body :
    ¬ (∀ sec ∈ extractSectionList ['D'] treeShortSect2, sec.sect2 ≠ [] →
        ∃ body ∈ chunkText calcK (normalizeText sec.text), sec.sect2 <:+: body) := by
  intro hall
  have hmem : secShort ∈ extractSectionList ['D'] treeShortSect2 := by decide
  obtain ⟨body, hbody, -⟩ := hall secShort hmem (by decide)
  rw [normalizeText_fixed secShort.text (by decide) (by decide)] at hbody
  have hempty : chunkText calcK secShort.text = [] := by decide
  rw [hempty] at hbody
  simp at hbody

/-- C9 amended: every extracted Section emitted for a `<sect2>` node has
`text` equal to the whole-subtree text of that node and `sect2` equal to its
direct title's text; consequently the breadcrumb title (`sect2` field) also
occurs verbatim inside the section's text.  Whether it reaches a chunk
*body* depends on the chunker emitting a chunk covering it — the
counterexample shows a short section yields no chunk at all. -/
theorem sect2_title_occurs_in_section_text (doc : List Char) (root : Node) :
    ∀ sec ∈ extractSectionList doc root, sec.sect2 ≠ [] →
      sec.sect2 <:+: sec.text := by
  intro sec hmem h2
  obtain ⟨-, hdisj⟩ := processChapters_mem _ sec hmem
  rcases hdisj with h0 | ⟨ch, hchm, s1, hs1, s2, hs2, he1, he2, he3⟩
  · exact absurd h0 h2
  · rw [he2, he3]
    exact findDirectChildTitle_text_occurs s2

/-- Witness for C9 (amended) on `treeTitled`: the extracted `<sect2>`
section's breadcrumb title `"T"` occurs inside its text. -/
theorem sect2_title_occurs_in_section_text_witness :
    (secT ∈ extractSectionList ['D'] treeTitled ∧ secT.sect2 ≠ []) ∧
      secT.sect2 <:+: secT.text :=
  ⟨⟨by decide, by decide⟩,
    sect2_title_occurs_in_section_text ['D'] treeTitled secT (by decide) (by decide)⟩

/-!
### C10 — the direct-child title lookup
-/

/-- C10 counterexample: on `nodeNestedSameTag` the first `<title>` in
document order is a deeper descendant's title (direct-child flag `false`),
and the node *does* have a direct `<title>` child (`"Y"`), yet the lookup
returns `"X"` — the deeper title's text — rather than the empty string,
because the deeper title's immediate parent happens to carry the same tag
name (`sect1` nested in `sect1`). -/
theorem direct_title_lookup_nested_same_tag :
    firstTitleInfo nodeNestedSameTag = some ("sect1", false) ∧
      hasDirectTitle nodeNestedSameTag = true ∧
      findDirectChildTitle nodeNestedSameTag = ['X'] :=
  ⟨by decide, by decide, by decide⟩

/-- C10 amended: the lookup inspects only the first `<title>` descendant in
document order and compares its parent's *tag name* with the node's; when
that first title is not a direct child **and its parent's tag name differs
from the node's**, the lookup returns the empty string even if a direct
title exists.  (When the tag names coincide — e.g. same-tag nesting — the
deeper title's text is returned instead, as the counterexample shows.) -/
theorem direct_title_empty_of_deeper_other_tag (tag : String)
    (attrs : List (String × List Char)) (kids : List Node) (ptag : String)
    (hfind : firstTitleInfo (Node.elem tag attrs kids) = some (ptag, false))
    (hne : ptag ≠ tag) :
    findDirectChildTitle (Node.elem tag attrs kids) = [] := by
  simp only [firstTitleInfo, Option.map_eq_some'] at hfind
  obtain ⟨⟨title, ptag2, dir⟩, hr, hproj⟩ := hfind
  simp only [Prod.mk.injEq] at hproj
  obtain ⟨hp1, -⟩ := hproj
  simp only [findDirectChildTitle, hr]
  rw [if_neg]
  rw [hp1]
  exact hne

/-- Witness for C10 (amended) on `nodeDeeperOtherTag` (first title inside a
`<sect2>`, node tagged `sect1`): the lookup returns the empty string. -/
theorem direct_title_empty_of_deeper_other_tag_witness :
    (firstTitleInfo nodeDeeperOtherTag = some ("sect2", false) ∧
      ("sect2" : String) ≠ "sect1" ∧ hasDirectTitle nodeDeeperOtherTag = true) ∧
      findDirectChildTitle nodeDeeperOtherTag = [] :=
  ⟨⟨by decide, by decide, by decide⟩,
    direct_title_empty_of_deeper_other_tag "sect1" []
      [.elem "sect2" [] [.elem "title" [] [.text ['X']]],
       .elem "title" [] [.text ['Y']]]
      "sect2" (by decide) (by decide)⟩

/-!
### C5 — breadcrumb heading monotonicity
-/

lemma breadcrumb_mark1 (sec : Section) :
    ∃ l ∈ breadcrumb sec, (['#', ' ']).isPrefixOf l := by
  by_cases h2 : sec.chapter = [] <;> by_cases h3 : sec.sect1 = [] <;>
    by_cases h4 : sec.sect2 = [] <;>
    simp [breadcrumb, h2, h3, h4, List.isPrefixOf]

lemma breadcrumb_mark2 (sec : Section) :
    (∃ l ∈ breadcrumb sec, (['#', '#', ' ']).isPrefixOf l) ↔ sec.chapter ≠ [] := by
  by_cases h2 : sec.chapter = [] <;> by_cases h3 : sec.sect1 = [] <;>
    by_cases h4 : sec.sect2 = [] <;>
    simp [breadcrumb, h2, h3, h4, List.isPrefixOf]

lemma breadcrumb_mark3 (sec : Section) :
    (∃ l ∈ breadcrumb sec, (['#', '#', '#', ' ']).isPrefixOf l) ↔ sec.sect1 ≠ [] := by
  by_cases h2 : sec.chapter = [] <;> by_cases h3 : sec.sect1 = [] <;>
    by_cases h4 : sec.sect2 = [] <;>
    simp [breadcrumb, h2, h3, h4, List.isPrefixOf]

lemma breadcrumb_mark4 (sec : Section) :
    (∃ l ∈ breadcrumb sec, (['#', '#', '#', '#', ' ']).isPrefixOf l) ↔
      sec.sect2 ≠ [] := by
  by_cases h2 : sec.chapter = [] <;> by_cases h3 : sec.sect1 = [] <;>
    by_cases h4 : sec.sect2 = [] <;>
    simp [breadcrumb, h2, h3, h4, List.isPrefixOf]

/-- C5 counterexample: in hierarchical mode on `treeUntitledSect1` (untitled
`sect1`, titled `sect2`, 121-character body) the pipeline emits exactly one
chunk; its breadcrumb carries a `"#### "` heading line but no `"### "` and
no `"## "` line. -/
theorem breadcrumb_monotonicity_fails :
    ∃ chunk ∈ createChunksCustom calcK ['D'] treeUntitledSect1,
      hasHeadingLine ['#', '#', '#', '#', ' '] chunk = true ∧
      hasHeadingLine ['#', '#', '#', ' '] chunk = false ∧
      hasHeadingLine ['#', '#', ' '] chunk = false := by
  have hext : extractSectionList ['D'] treeUntitledSect1 = [secU] := by decide
  have hnorm : normalizeText secU.text = secU.text :=
    normalizeText_fixed secU.text (by decide) (by decide)
  have hchunks : chunkText calcK secU.text = [secU.text] := by decide
  refine ⟨strJoin ['\n'] (breadcrumb secU ++ [secU.text]), ?_, by decide, by decide,
    by decide⟩
  simp [createChunksCustom, hext, hnorm, hchunks]

/-- C5 amended: provided every chapter-equivalent node and every `<sect1>`
node has a non-empty direct-child title, the breadcrumb of every extracted
section (hence of every chunk emitted for it) is monotone: a `"#### "` line
is accompanied by `"### "`, `"## "` and `"# "` lines.  (The counterexample
shows this fails when a `sect1` lacks its direct title; a `"### "` line can
likewise appear without `"## "` when the chapter-equivalent is untitled.) -/
theorem breadcrumb_monotone_of_titled (doc : List Char) (root : Node)
    (hch : ∀ ch ∈ chapterEquivs (replaceXrefs root), findDirectChildTitle ch ≠ [])
    (hs1 : ∀ ch ∈ chapterEquivs (replaceXrefs root),
      ∀ s1 ∈ findAllTags ["sect1"] ch, findDirectChildTitle s1 ≠ []) :
    ∀ sec ∈ extractSectionList doc root,
      (∃ l ∈ breadcrumb sec, (['#', '#', '#', '#', ' ']).isPrefixOf l) →
        (∃ l ∈ breadcrumb sec, (['#', '#', '#', ' ']).isPrefixOf l) ∧
        (∃ l ∈ breadcrumb sec, (['#', '#', ' ']).isPrefixOf l) ∧
        (∃ l ∈ breadcrumb sec, (['#', ' ']).isPrefixOf l) := by
  intro sec hmem h4
  have h2 : sec.sect2 ≠ [] := (breadcrumb_mark4 sec).mp h4
  obtain ⟨⟨ch, hchm, hcheq⟩, hdisj⟩ := processChapters_mem _ sec hmem
  have hchne : sec.chapter ≠ [] := by
    rw [hcheq]
    exact hch ch hchm
  rcases hdisj with h0 | ⟨ch', hchm', s1, hs1m, s2, hs2m, he1, he2, he3⟩
  · exact absurd h0 h2
  · have hs1ne : sec.sect1 ≠ [] := by
      rw [he1]
      exact hs1 ch' hchm' s1 hs1m
    exact ⟨(breadcrumb_mark3 sec).mpr hs1ne, (breadcrumb_mark2 sec).mpr hchne,
      breadcrumb_mark1 sec⟩

/-- Witness for C5 (amended) on the fully titled `treeTitled`. -/
theorem breadcrumb_monotone_of_titled_witness :
    ((∀ ch ∈ chapterEquivs (replaceXrefs treeTitled), findDirectChildTitle ch ≠ []) ∧
      (∀ ch ∈ chapterEquivs (replaceXrefs treeTitled),
        ∀ s1 ∈ findAllTags ["sect1"] ch, findDirectChildTitle s1 ≠ [])) ∧
      (∀ sec ∈ extractSectionList ['D'] treeTitled,
        (∃ l ∈ breadcrumb sec, (['#', '#', '#', '#', ' ']).isPrefixOf l) →
          (∃ l ∈ breadcrumb sec, (['#', '#', '#', ' ']).isPrefixOf l) ∧
          (∃ l ∈ breadcrumb sec, (['#', '#', ' ']).isPrefixOf l) ∧
          (∃ l ∈ breadcrumb sec, (['#', ' ']).isPrefixOf l)) :=
  ⟨⟨by decide, by decide⟩,
    breadcrumb_monotone_of_titled ['D'] treeTitled (by decide) (by decide)⟩

/-!
### Chunker lemmas (shared by C1, C3)
-/

lemma pySlice_zero_len (text : List Char) :
    pySlice text 0 (text.length : Int) = text := by
  simp only [pySlice, pyBound]
  have h1 : ¬ ((text.length : Int) < 0) := by omega
  have h2 : ¬ ((0 : Int) < 0) := by omega
  simp only [if_neg h1, if_neg h2]
  have h3 : min ((text.length : Int)).toNat text.length = text.length := by omega
  have h4 : min ((0 : Int)).toNat text.length = 0 := by omega
  rw [h3, h4, List.take_length, List.drop_zero]

lemma pySlice_nil_of_le {text : List Char} {a b : Int} (h : b ≤ a) (h0 : 0 ≤ b) :
    pySlice text a b = [] := by
  have hb : pyBound text b ≤ pyBound text a := by
    simp only [pyBound]
    split <;> split <;> omega
  apply List.drop_eq_nil_of_le
  calc (text.take (pyBound text b)).length ≤ pyBound text b := by
        simp [List.length_take]
    _ ≤ pyBound text a := hb

lemma pySlice_length {text : List Char} {a : Int} (h0 : 0 ≤ a)
    (hn : a ≤ (text.length : Int)) :
    ((pySlice text a (text.length : Int)).length : Int) = (text.length : Int) - a := by
  simp only [pySlice, pyBound]
  have h1 : ¬ ((text.length : Int) < 0) := by omega
  have h2 : ¬ (a < 0) := by omega
  simp only [if_neg h1, if_neg h2]
  have h3 : min (text.length : Int).toNat text.length = text.length := by omega
  rw [h3, List.take_length]
  simp only [List.length_drop]
  omega

lemma pyBound_le_length (text : List Char) (i : Int) :
    pyBound text i ≤ text.length := by
  simp only [pyBound]
  split <;> omega

lemma pySlice_append {text : List Char} {a b c : Int} (h0 : 0 ≤ a) (hab : a ≤ b)
    (hbc : b ≤ c) :
    pySlice text a b ++ pySlice text b c = pySlice text a c := by
  simp only [pySlice]
  have ha : pyBound text a ≤ pyBound text b := by
    simp only [pyBound]
    split <;> split <;> omega
  have hb : pyBound text b ≤ pyBound text c := by
    simp only [pyBound]
    split <;> split <;> omega
  have hal : pyBound text a ≤ text.length := pyBound_le_length text a
  set a' := pyBound text a with ha'
  set b' := pyBound text b with hb'
  set c' := pyBound text c with hc'
  have hmin : min b' c' = b' := by omega
  have htake : text.take c' = text.take b' ++ (text.take c').drop b' := by
    have h1 := List.take_append_drop b' (text.take c')
    rw [List.take_take, hmin] at h1
    exact h1.symm
  conv_rhs => rw [htake]
  rw [List.drop_append_of_le_length (by simp only [List.length_take]; omega)]

lemma pySlice_drop {text : List Char} {b p e : Int} (h0 : 0 ≤ b) (hbp : b ≤ p)
    (hpe : p ≤ e) (hen : e ≤ (text.length : Int)) :
    (pySlice text b e).drop (p - b).toNat = pySlice text p e := by
  simp only [pySlice, List.drop_drop]
  congr 1
  simp only [pyBound]
  have h1 : ¬ (b < 0) := by omega
  have h2 : ¬ (p < 0) := by omega
  simp only [if_neg h1, if_neg h2]
  omega

lemma backwardScan_bounds (text : List Char) (lim : Int) :
    ∀ (fuel : Nat) (s lw : Int), lim ≤ s →
      (lim ≤ (backwardScan text lim fuel s lw).1 ∧
        (backwardScan text lim fuel s lw).1 ≤ s ∧
        (0 ≤ s → 0 ≤ (backwardScan text lim fuel s lw).1) ∧
        ((backwardScan text lim fuel s lw).2 = lw ∨
          (lim < (backwardScan text lim fuel s lw).2 ∧
            0 < (backwardScan text lim fuel s lw).2 ∧
            (backwardScan text lim fuel s lw).2 ≤ s))) := by
  intro fuel
  induction fuel with
  | zero =>
    intro s lw hls
    exact ⟨hls, le_refl s, fun h => h, Or.inl rfl⟩
  | succ fuel ih =>
    intro s lw hls
    simp only [backwardScan]
    split
    · rename_i hcond
      obtain ⟨hs0, hsl, -⟩ := hcond
      have := ih (s - 1) (if pyIdx text s ∈ WORDS_BREAKS then s else lw) (by omega)
      obtain ⟨i1, i2, i3, i4⟩ := this
      refine ⟨i1, by omega, fun _ => i3 (by omega), ?_⟩
      rcases i4 with i4 | i4
      · rw [i4]
        split
        · exact Or.inr ⟨hsl, hs0, le_refl s⟩
        · exact Or.inl rfl
      · exact Or.inr ⟨i4.1, i4.2.1, by omega⟩
    · exact ⟨hls, le_refl s, fun h => h, Or.inl rfl⟩

lemma backwardAdjust_bounds (text : List Char) (x : Int) :
    x - (CHUNK_OVERLAP + MAX_CHARS_SEARCH) + CHUNK_OVERLAP ≤ backwardAdjust text x ∧
      backwardAdjust text x ≤ x + 1 ∧ (0 ≤ x → 0 ≤ backwardAdjust text x) := by
  simp only [backwardAdjust, CHUNK_OVERLAP, MAX_CHARS_SEARCH]
  have hb := backwardScan_bounds text (x - MAX_CHARS_SEARCH) 100 x (-1)
    (by simp only [MAX_CHARS_SEARCH]; omega)
  simp only [MAX_CHARS_SEARCH] at hb
  obtain ⟨h1, h2, h3, h4⟩ := hb
  rcases h4 with h4 | h4
  · rw [h4]
    have hno : ¬ (pyIdx text (backwardScan text (x - 100) 100 x (-1)).1
        ∉ SENTENCE_ENDINGS ∧ (0:Int) < -1) := by
      intro hc
      omega
    rw [if_neg hno]
    split
    · exact ⟨by omega, by omega, fun hx => by omega⟩
    · exact ⟨by omega, by omega, fun hx => by have := h3 hx; omega⟩
  · split
    · split
      · exact ⟨by omega, by omega, fun hx => by omega⟩
      · exact ⟨by omega, by omega, fun hx => by omega⟩
    · split
      · exact ⟨by omega, by omega, fun hx => by have := h3 hx; omega⟩
      · exact ⟨by omega, by omega, fun hx => by have := h3 hx; omega⟩

lemma backwardAdjust_zero (text : List Char) : backwardAdjust text 0 = 0 := by
  have h : backwardScan text (0 - MAX_CHARS_SEARCH) 100 0 (-1) = (0, -1) := by
    have : (100 : Nat) = 99 + 1 := rfl
    rw [this, backwardScan]
    simp
  simp only [backwardAdjust, h]
  norm_num

lemma forwardScan_bounds (text : List Char) (lim : Int) :
    ∀ (fuel : Nat) (e lw : Int),
      (e ≤ (forwardScan text lim fuel e lw).1 ∧
        (e ≤ (text.length : Int) →
          (forwardScan text lim fuel e lw).1 ≤ (text.length : Int)) ∧
        ((forwardScan text lim fuel e lw).2 = lw ∨
          (e ≤ (forwardScan text lim fuel e lw).2 ∧
            (forwardScan text lim fuel e lw).2 < (forwardScan text lim fuel e lw).1))) := by
  intro fuel
  induction fuel with
  | zero =>
    intro e lw
    exact ⟨le_refl e, fun h => h, Or.inl rfl⟩
  | succ fuel ih =>
    intro e lw
    simp only [forwardScan]
    split
    · rename_i hcond
      obtain ⟨hen, -, -⟩ := hcond
      by_cases hwb : pyIdx text e ∈ WORDS_BREAKS
      · simp only [if_pos hwb]
        obtain ⟨i1, i2, i3⟩ := ih (e + 1) e
        refine ⟨by omega, fun _ => i2 (by omega), ?_⟩
        rcases i3 with i3 | i3
        · rw [i3]
          exact Or.inr ⟨le_refl e, by omega⟩
        · exact Or.inr ⟨by omega, i3.2⟩
      · simp only [if_neg hwb]
        obtain ⟨i1, i2, i3⟩ := ih (e + 1) lw
        refine ⟨by omega, fun _ => i2 (by omega), ?_⟩
        rcases i3 with i3 | i3
        · rw [i3]
          exact Or.inl rfl
        · exact Or.inr ⟨by omega, i3.2⟩
    · exact ⟨le_refl e, fun h => h, Or.inl rfl⟩

lemma forwardEnd_le_length (calcF : List Char → Nat) (text : List Char) (b : Int) :
    forwardEnd calcF text b ≤ (text.length : Int) := by
  simp only [forwardEnd]
  split
  · split <;> omega
  · rename_i hclamp
    have hf := forwardScan_bounds text (b + (calcF (pySlice text b (text.length : Int)) : Int) + MAX_CHARS_SEARCH)
      100 (b + (calcF (pySlice text b (text.length : Int)) : Int)) (-1)
    obtain ⟨f1, f2, f3⟩ := hf
    have hup := f2 (by omega)
    split
    · rename_i hsnap
      split <;> omega
    · split <;> rcases f3 with f3 | f3 <;> omega

lemma forwardEnd_ge (calcF : List Char → Nat) (text : List Char) (b : Int) :
    min (b + (calcF (pySlice text b (text.length : Int)) : Int) + 1)
      (text.length : Int) ≤ forwardEnd calcF text b := by
  simp only [forwardEnd]
  split
  · split <;> omega
  · rename_i hclamp
    have hf := forwardScan_bounds text (b + (calcF (pySlice text b (text.length : Int)) : Int) + MAX_CHARS_SEARCH)
      100 (b + (calcF (pySlice text b (text.length : Int)) : Int)) (-1)
    obtain ⟨f1, f2, f3⟩ := hf
    split
    · rename_i hsnap
      obtain ⟨-, -, hpos⟩ := hsnap
      rcases f3 with f3 | f3
      · omega
      · split <;> omega
    · split <;> omega

lemma chunkGo_eq_map (calcF : List Char → Nat) (text : List Char) :
    ∀ (fuel : Nat) (start e : Int),
      (chunkTextGo calcF text fuel start e).1 =
        ((spansGo calcF text fuel start e).1).map (fun p => pySlice text p.1 p.2) ∧
      (chunkTextGo calcF text fuel start e).2 = (spansGo calcF text fuel start e).2 := by
  intro fuel
  induction fuel with
  | zero => intro start e; exact ⟨rfl, rfl⟩
  | succ fuel ih =>
    intro start e
    simp only [chunkTextGo, spansGo]
    split
    · obtain ⟨i1, i2⟩ := ih (forwardEnd calcF text start - CHUNK_OVERLAP)
        (forwardEnd calcF text start)
      simp only [List.map_cons]
      exact ⟨by rw [i1], i2⟩
    · exact ⟨rfl, rfl⟩

/-- `_chunk_text` emits exactly the slices of its spans. -/
lemma chunkText_eq_map_spans (calcF : List Char → Nat) (text : List Char) :
    chunkText calcF text =
      (chunkSpans calcF text).map (fun p => pySlice text p.1 p.2) := by
  obtain ⟨h1, h2⟩ := chunkGo_eq_map calcF text (text.length + 1) 0 (text.length : Int)
  simp only [chunkText, chunkSpans, h1, h2]
  split
  · simp
  · rfl

lemma spansGo_no_trailing (calcF : List Char → Nat) (text : List Char) :
    ∀ (fuel : Nat) (start e : Int), start = e - CHUNK_OVERLAP →
      ¬ ((spansGo calcF text fuel start e).2.1 + CHUNK_OVERLAP <
          (spansGo calcF text fuel start e).2.2) := by
  intro fuel
  induction fuel with
  | zero =>
    intro start e hse
    simp only [spansGo]
    omega
  | succ fuel ih =>
    intro start e hse
    simp only [spansGo]
    split
    · exact ih (forwardEnd calcF text start - CHUNK_OVERLAP) (forwardEnd calcF text start) rfl
    · simp only
      omega

/-- The trailing emission on lines 134–135 never fires: after the loop,
`start = end - CHUNK_OVERLAP` (or the loop never ran and
`start = 0`, `end = length` with the same condition as the loop guard), so
the chunk list is exactly the loop's output. -/
lemma chunkSpans_eq_loop (calcF : List Char → Nat) (text : List Char) :
    chunkSpans calcF text =
      (spansGo calcF text (text.length + 1) 0 (text.length : Int)).1 := by
  simp only [chunkSpans, spansGo]
  split
  · rename_i hcond
    have hnt := spansGo_no_trailing calcF text (text.length)
      (forwardEnd calcF text 0 - CHUNK_OVERLAP) (forwardEnd calcF text 0) rfl
    split
    · exact absurd (by assumption) hnt
    · rfl
  · rfl

lemma spansGo_head_start (calcF : List Char → Nat) (text : List Char) :
    ∀ (fuel : Nat) (start e : Int),
      ∀ p ∈ (spansGo calcF text fuel start e).1.head?,
        p.1 = backwardAdjust text start := by
  intro fuel
  cases fuel with
  | zero => intro start e p hp; simp [spansGo] at hp
  | succ fuel =>
    intro start e p hp
    simp only [spansGo] at hp
    split at hp
    · simp only [List.head?_cons, Option.mem_def, Option.some.injEq] at hp
      rw [← hp]
    · simp at hp

lemma spansGo_chain (calcF : List Char → Nat) (text : List Char) :
    ∀ (fuel : Nat) (start e : Int),
      List.Chain' (fun p q => q.1 = backwardAdjust text (p.2 - CHUNK_OVERLAP))
        (spansGo calcF text fuel start e).1 := by
  intro fuel
  induction fuel with
  | zero => intro start e; simp [spansGo]
  | succ fuel ih =>
    intro start e
    simp only [spansGo]
    split
    · rw [List.chain'_cons']
      refine ⟨?_, ih _ _⟩
      intro q hq
      exact spansGo_head_start calcF text fuel _ _ q hq
    · simp

/-!
### C3 — the overlap between consecutive chunks
-/

/-- C3 counterexample, with the source's own binary-search estimator over a
one-token-per-character oracle (`N_TOKENS_TARGET = 1000` tokens ↦ 1000
characters): on the 1310-character text `t1310` the chunker emits the two
consecutive chunks `(0, 1001)` and `(900, 1310)`.  The second chunk's start
was moved back by the backward boundary search (from `1001 - 100 = 901` to
`900`, landing just past the period at index 899), so the region shared
between the end of the first chunk and the start of the second is
`1001 - 900 = 101 > 100` characters. -/
theorem chunk_overlap_exceeds_100 :
    chunkSpans (estimatorCalc charToken) t1310 = [(0, 1001), (900, 1310)] ∧
      ((chunkSpans (estimatorCalc charToken) t1310).getD 0 (0, 0)).2 -
        ((chunkSpans (estimatorCalc charToken) t1310).getD 1 (0, 0)).1 = 101 ∧
      ¬ (((chunkSpans (estimatorCalc charToken) t1310).getD 0 (0, 0)).2 -
          ((chunkSpans (estimatorCalc charToken) t1310).getD 1 (0, 0)).1 ≤ 100) :=
  ⟨by decide, by decide, by decide⟩

/-- C3 amended: for every estimator and text, the region shared between the
end of a chunk and the start of the next is at most
`CHUNK_OVERLAP + MAX_CHARS_SEARCH = 200` characters (the raw overlap of 100
plus up to 100 characters of backward boundary search). -/
theorem chunk_overlap_le_200 (calcF : List Char → Nat) (text : List Char)
    (i : Nat) (hi : i + 1 < (chunkSpans calcF text).length) :
    ((chunkSpans calcF text).get ⟨i, by omega⟩).2 -
      ((chunkSpans calcF text).get ⟨i + 1, hi⟩).1 ≤
        CHUNK_OVERLAP + MAX_CHARS_SEARCH := by
  have hchain := spansGo_chain calcF text (text.length + 1) 0 (text.length : Int)
  rw [← chunkSpans_eq_loop] at hchain
  rw [List.chain'_iff_get] at hchain
  have hrel := hchain i (by omega)
  have hba := backwardAdjust_bounds text
    (((chunkSpans calcF text).get ⟨i, by omega⟩).2 - CHUNK_OVERLAP)
  rw [← hrel] at hba
  obtain ⟨hb1, -, -⟩ := hba
  omega

/-- Witness for C3 (amended) at the two-chunk run on `t103`. -/
theorem chunk_overlap_le_200_witness :
    (0 + 1 < (chunkSpans calcK t103).length) ∧
      ((chunkSpans calcK t103).get ⟨0, by decide⟩).2 -
        ((chunkSpans calcK t103).get ⟨1, by decide⟩).1 ≤
          CHUNK_OVERLAP + MAX_CHARS_SEARCH :=
  ⟨by decide, chunk_overlap_le_200 calcK t103 0 (by decide)⟩

/-!
### C1 — coverage of the input by the emitted chunks
-/

lemma spansGo_dedup (calcF : List Char → Nat) (text : List Char)
    (hcalc : ∀ s : List Char, 100 < s.length → 100 < calcF s) :
    ∀ (fuel : Nat) (prevE : Int), 100 ≤ prevE → prevE ≤ (text.length : Int) →
      (text.length : Int) ≤ prevE + fuel →
      dedupRest text prevE
          (spansGo calcF text fuel (prevE - CHUNK_OVERLAP) prevE).1 =
        pySlice text prevE (text.length : Int) := by
  intro fuel
  induction fuel with
  | zero =>
    intro prevE h1 h2 h3
    simp only [spansGo, dedupRest]
    exact (pySlice_nil_of_le (by omega) (by omega)).symm
  | succ fuel ih =>
    intro prevE h1 h2 h3
    simp only [spansGo, CHUNK_OVERLAP] at ih ⊢
    split
    · rename_i hcond
      have hlt : prevE < (text.length : Int) := by omega
      have hx0 : (0 : Int) ≤ prevE - 100 := by omega
      have hxn : prevE - 100 ≤ (text.length : Int) := by omega
      have hslen : 100 <
          (pySlice text (prevE - 100) (text.length : Int)).length := by
        have hl := @pySlice_length text (prevE - 100) hx0 hxn
        omega
      have hcge := hcalc _ hslen
      have hge := forwardEnd_ge calcF text (prevE - 100)
      have hle := forwardEnd_le_length calcF text (prevE - 100)
      have hcgeI : (100 : Int) <
          (calcF (pySlice text (prevE - 100) (text.length : Int)) : Int) := by
        exact_mod_cast hcge
      have he'ge : prevE + 1 ≤ forwardEnd calcF text (prevE - 100) := by
        omega
      have hba := backwardAdjust_bounds text (prevE - 100)
      simp only [CHUNK_OVERLAP, MAX_CHARS_SEARCH] at hba
      obtain ⟨hb1, hb2, hb3⟩ := hba
      have hb0 := hb3 hx0
      simp only [dedupRest]
      rw [pySlice_drop hb0 (by omega) (by omega) hle]
      rw [ih (forwardEnd calcF text (prevE - 100)) (by omega) hle (by omega)]
      exact pySlice_append (by omega) (by omega) hle
    · rename_i hcond
      simp only [dedupRest]
      exact (pySlice_nil_of_le (by omega) (by omega)).symm

/-- C1 counterexample: on the two-character text `"A."` the chunker emits no
chunk at all (`_chunk_text` returns `[]` for any text of length ≤
`CHUNK_OVERLAP`), so no concatenation of chunk bodies can reconstruct the
non-empty input. -/
theorem chunker_drops_short_text :
    chunkText calcK tShort = [] ∧
      dedupBodies tShort (chunkSpans calcK tShort) = [] ∧ tShort ≠ [] :=
  ⟨by decide, by decide, by decide⟩

/-- C1 amended: for every text longer than `CHUNK_OVERLAP = 100` characters,
and whenever the estimator returns more than 100 characters on every window
it is consulted on (true of the real estimator: a 1000-token window spans
far more than 100 characters), concatenating the emitted chunk bodies with
the shared overlap regions de-duplicated reconstructs the input exactly.
Texts of length ≤ 100 yield no chunks at all (see the counterexample), which
is the only correction the claim needs. -/
theorem chunkText_coverage (calcF : List Char → Nat) (text : List Char)
    (hcalc : ∀ s : List Char, 100 < s.length → 100 < calcF s)
    (hlen : 100 < text.length) :
    dedupBodies text (chunkSpans calcF text) = text ∧
      chunkText calcF text =
        (chunkSpans calcF text).map (fun p => pySlice text p.1 p.2) := by
  refine ⟨?_, chunkText_eq_map_spans calcF text⟩
  rw [chunkSpans_eq_loop]
  simp only [spansGo, CHUNK_OVERLAP]
  split
  · rename_i hcond
    rw [backwardAdjust_zero]
    simp only [dedupBodies]
    have hsl : pySlice text 0 (text.length : Int) = text := pySlice_zero_len text
    have hslen : 100 < (pySlice text 0 (text.length : Int)).length := by
      rw [hsl]
      exact hlen
    have hcge := hcalc _ hslen
    have hcgeI : (100 : Int) <
        (calcF (pySlice text 0 (text.length : Int)) : Int) := by
      exact_mod_cast hcge
    have hge := forwardEnd_ge calcF text 0
    have hle := forwardEnd_le_length calcF text 0
    have he0 : 100 ≤ forwardEnd calcF text 0 := by omega
    have hd := spansGo_dedup calcF text hcalc text.length
      (forwardEnd calcF text 0) he0 hle (by omega)
    simp only [CHUNK_OVERLAP] at hd
    rw [hd, pySlice_append (le_refl 0) (by omega) hle]
    exact hsl
  · rename_i hcond
    exfalso
    omega

/-- Witness for C1 (amended): with the whole-suffix estimator on a
101-character text, the single emitted chunk reconstructs the text. -/
theorem chunkText_coverage_witness :
    ((∀ s : List Char, 100 < s.length → 100 < calcLen s) ∧ 100 < t101.length) ∧
      dedupBodies t101 (chunkSpans calcLen t101) = t101 :=
  ⟨⟨fun _ h => h, by decide⟩,
    (chunkText_coverage calcLen t101 (fun _ h => h) (by decide)).1⟩
